import Mathlib

/-!
Verification of the numerical core of `proto-sim-portfolio`:
the generic bisection root finder (`src/bisection.rs`) and the
normal-distribution trading-function curve model (`src/math.rs`).

Floating-point (`f64`) values are modelled as elements of a linear ordered
field: the root finder is embedded generically (instantiated at `ℚ` for
concrete evaluations and at `ℝ` by the curve model), and the curve model is
embedded over `ℝ`.  The standard normal distribution supplied by the external
`statrs` crate (`Normal::new(0.0, 1.0)`) is represented by an uninterpreted
pair of functions (its CDF and inverse CDF), since its implementation is not
part of this repository.
-/

/-- Embedding of `Bisection` from `src/bisection.rs`:
`lower`/`upper` bound the search space, `epsilon` is the maximum distance
between the bounds at which the search stops.  The source stores `max_iter`
as an `f64` used only as an integral iteration budget (`iterations` starts at
`0.0` and increases by `1.0`, compared with `<`), so it is modelled as `ℕ`. -/
structure Bisection (α : Type) where
  lower : α
  upper : α
  epsilon : α
  max_iter : ℕ

/-- The `while` loop of `Bisection::bisection`: `fuel` is the number of
iterations still allowed by `max_iter`; `lower_temp`, `upper_temp` and `root`
are the mutable locals of the source.  Each iteration recomputes
`root = (lower_temp + upper_temp) / 2`, moves `upper_temp` down to `root`
when `fx(root) * fx(lower_temp) ≤ 0` and otherwise moves `lower_temp` up to
`root`; the loop stops when `upper_temp - lower_temp ≤ epsilon` or the fuel
runs out. -/
def bisectionLoop {α : Type} [LinearOrderedField α] (f : α → α) (epsilon : α)
    (fuel : ℕ) (lower_temp upper_temp root : α) : α :=
  match fuel with
  | 0 => root
  | fuel + 1 =>
    if upper_temp - lower_temp > epsilon then
      let root := (lower_temp + upper_temp) / 2
      let output := f root
      if output * f lower_temp ≤ 0 then
        bisectionLoop f epsilon fuel lower_temp root root
      else
        bisectionLoop f epsilon fuel root upper_temp root
    else root

/-- Embedding of `Bisection::bisection` from `src/bisection.rs`:
`root` starts at `0.0`, `distance` at `upper - lower`, and the loop runs
while `distance > epsilon && iterations < max_iter`. -/
def Bisection.bisection {α : Type} [LinearOrderedField α]
    (b : Bisection α) (f : α → α) : α :=
  bisectionLoop f b.epsilon b.max_iter b.lower b.upper 0

section BisectionSpecSide

/-- One iteration of the bisection bracket update, as the specification
describes it: compute `mid = (lo + hi) / 2`; if `f(mid) * f(lo) ≤ 0` set
`hi = mid`, otherwise set `lo = mid`. -/
def bisectionStep {α : Type} [LinearOrderedField α] (f : α → α) (p : α × α) : α × α :=
  let mid := (p.1 + p.2) / 2
  if f mid * f p.1 ≤ 0 then (p.1, mid) else (mid, p.2)

/-- The bracket `(lo, hi)` after `n` spec-side iterations, starting from
`(lower, upper)`. -/
def bisectionState {α : Type} [LinearOrderedField α] (f : α → α) (lower upper : α) :
    ℕ → α × α
  | 0 => (lower, upper)
  | n + 1 => bisectionStep f (bisectionState f lower upper n)

/-- The midpoint computed during the `n`-th spec-side iteration (`0` when no
iteration has run, matching the source's `root` initializer). -/
def bisectionMid {α : Type} [LinearOrderedField α] (f : α → α) (lower upper : α) :
    ℕ → α
  | 0 => 0
  | n + 1 => ((bisectionState f lower upper n).1 + (bisectionState f lower upper n).2) / 2

/-- Spec-side stopping iteration: starting at iteration `n` with `budget`
iterations left, stop at the first iteration whose bracket is within
`epsilon`, or when the budget is exhausted. -/
def bisectionStop {α : Type} [LinearOrderedField α] (f : α → α)
    (lower upper epsilon : α) : ℕ → ℕ → ℕ
  | 0, n => n
  | budget + 1, n =>
    if (bisectionState f lower upper n).2 - (bisectionState f lower upper n).1 ≤ epsilon
    then n
    else bisectionStop f lower upper epsilon budget (n + 1)

/-- The root-finding loop as the specification describes it: iterate the
bracket update from `(lower, upper)`, stop as soon as the distance is within
`epsilon` or `max_iter` iterations have run, and return the last computed
midpoint (`0` when none was computed). -/
def bisectionSpec {α : Type} [LinearOrderedField α] (b : Bisection α) (f : α → α) : α :=
  bisectionMid f b.lower b.upper
    (bisectionStop f b.lower b.upper b.epsilon b.max_iter 0)

lemma bisectionLoop_eq_spec {α : Type} [LinearOrderedField α] (f : α → α)
    (epsilon lower upper : α) :
    ∀ (fuel n : ℕ),
      bisectionLoop f epsilon fuel (bisectionState f lower upper n).1
          (bisectionState f lower upper n).2 (bisectionMid f lower upper n) =
        bisectionMid f lower upper (bisectionStop f lower upper epsilon fuel n) := by
  intro fuel
  induction fuel with
  | zero => intro n; rfl
  | succ budget ih =>
    intro n
    by_cases hd : (bisectionState f lower upper n).2 - (bisectionState f lower upper n).1 ≤ epsilon
    · rw [bisectionLoop, bisectionStop]
      rw [if_neg (not_lt.2 hd), if_pos hd]
    · rw [bisectionLoop, bisectionStop]
      rw [if_pos (not_le.1 hd), if_neg hd]
      simp only []
      have hmid : bisectionMid f lower upper (n + 1) =
          ((bisectionState f lower upper n).1 + (bisectionState f lower upper n).2) / 2 := rfl
      by_cases hb : f (((bisectionState f lower upper n).1 + (bisectionState f lower upper n).2) / 2)
          * f (bisectionState f lower upper n).1 ≤ 0
      · rw [if_pos hb]
        have h1 : (bisectionState f lower upper (n + 1)).1 = (bisectionState f lower upper n).1 := by
          simp [bisectionState, bisectionStep, hb]
        have h2 : (bisectionState f lower upper (n + 1)).2 =
            ((bisectionState f lower upper n).1 + (bisectionState f lower upper n).2) / 2 := by
          simp [bisectionState, bisectionStep, hb]
        have := ih (n + 1)
        rw [h1, h2, hmid] at this
        exact this
      · rw [if_neg hb]
        have h1 : (bisectionState f lower upper (n + 1)).1 =
            ((bisectionState f lower upper n).1 + (bisectionState f lower upper n).2) / 2 := by
          simp [bisectionState, bisectionStep, hb]
        have h2 : (bisectionState f lower upper (n + 1)).2 = (bisectionState f lower upper n).2 := by
          simp [bisectionState, bisectionStep, hb]
        have := ih (n + 1)
        rw [h1, h2, hmid] at this
        exact this

end BisectionSpecSide

/-- C3: the bisection loop maintains a bracket `(lo, hi)` initialized to
`(lower, upper)`; each iteration computes `mid = (lo + hi) / 2`, sets
`hi = mid` when `f(mid) * f(lo) ≤ 0` and `lo = mid` otherwise, recomputes the
distance `hi - lo`, stops exactly when the distance is at most `epsilon` or
the iteration count reaches `max_iter`, and returns the last computed
midpoint. -/
theorem bisection_eq_spec {α : Type} [LinearOrderedField α]
    (b : Bisection α) (f : α → α) :
    b.bisection f = bisectionSpec b f := by
  have h := bisectionLoop_eq_spec f b.epsilon b.lower b.upper b.max_iter 0
  exact h

/-- C4: when the initial bracket width `upper - lower` is already at most
`epsilon`, the loop body never executes and `bisection` returns exactly `0`,
the initial value of `root`. -/
theorem bisection_zero_iterations {α : Type} [LinearOrderedField α]
    (b : Bisection α) (f : α → α) (h : b.upper - b.lower ≤ b.epsilon) :
    b.bisection f = 0 := by
  unfold Bisection.bisection
  cases hm : b.max_iter with
  | zero => rfl
  | succ k =>
    rw [bisectionLoop]
    rw [if_neg (not_lt.2 h)]

/-- Witness for C4 at a concrete degenerate bracket. -/
theorem bisection_zero_iterations_witness :
    (1 : ℚ) - 0 ≤ 2 ∧
      Bisection.bisection (⟨0, 1, 2, 5⟩ : Bisection ℚ) (fun x => x) = 0 :=
  ⟨by norm_num,
    bisection_zero_iterations (⟨0, 1, 2, 5⟩ : Bisection ℚ) (fun x => x) (by norm_num)⟩

lemma bisectionLoop_mem {α : Type} [LinearOrderedField α] (f : α → α)
    (epsilon lower upper : α) :
    ∀ (fuel : ℕ) (lo hi root : α), lower ≤ lo → lo ≤ hi → hi ≤ upper →
      lower ≤ root → root ≤ upper →
      lower ≤ bisectionLoop f epsilon fuel lo hi root ∧
        bisectionLoop f epsilon fuel lo hi root ≤ upper := by
  intro fuel
  induction fuel with
  | zero => intro lo hi root _ _ _ h4 h5; exact ⟨h4, h5⟩
  | succ k ih =>
    intro lo hi root h1 h2 h3 h4 h5
    rw [bisectionLoop]
    by_cases hd : hi - lo > epsilon
    · rw [if_pos hd]
      simp only []
      have hm1 : lo ≤ (lo + hi) / 2 := by linarith
      have hm2 : (lo + hi) / 2 ≤ hi := by linarith
      by_cases hb : f ((lo + hi) / 2) * f lo ≤ 0
      · rw [if_pos hb]
        exact ih lo ((lo + hi) / 2) ((lo + hi) / 2) h1 hm1 (le_trans hm2 h3)
          (le_trans h1 hm1) (le_trans hm2 h3)
      · rw [if_neg hb]
        exact ih ((lo + hi) / 2) hi ((lo + hi) / 2) (le_trans h1 hm1) hm2 h3
          (le_trans h1 hm1) (le_trans hm2 h3)
    · rw [if_neg hd]
      exact ⟨h4, h5⟩

lemma bisectionState_mem {α : Type} [LinearOrderedField α] (f : α → α)
    (lower upper : α) (hle : lower ≤ upper) :
    ∀ n : ℕ, lower ≤ (bisectionState f lower upper n).1 ∧
      (bisectionState f lower upper n).1 ≤ (bisectionState f lower upper n).2 ∧
      (bisectionState f lower upper n).2 ≤ upper := by
  intro n
  induction n with
  | zero => exact ⟨le_refl _, hle, le_refl _⟩
  | succ k ih =>
    obtain ⟨h1, h2, h3⟩ := ih
    have hm1 : (bisectionState f lower upper k).1 ≤
        ((bisectionState f lower upper k).1 + (bisectionState f lower upper k).2) / 2 := by
      linarith
    have hm2 : ((bisectionState f lower upper k).1 + (bisectionState f lower upper k).2) / 2 ≤
        (bisectionState f lower upper k).2 := by
      linarith
    have hs : bisectionState f lower upper (k + 1) =
        bisectionStep f (bisectionState f lower upper k) := rfl
    rw [hs]
    by_cases hb : f (((bisectionState f lower upper k).1 + (bisectionState f lower upper k).2) / 2)
        * f (bisectionState f lower upper k).1 ≤ 0
    · simp only [bisectionStep, if_pos hb, Prod.fst, Prod.snd]
      exact ⟨h1, hm1, le_trans hm2 h3⟩
    · simp only [bisectionStep, if_neg hb, Prod.fst, Prod.snd]
      exact ⟨le_trans h1 hm1, hm2, h3⟩

/-- C10: when `lower ≤ upper` and at least one iteration executes
(`epsilon < upper - lower` and `max_iter ≥ 1`), the bracket `(lo, hi)`
satisfies `lower ≤ lo ≤ hi ≤ upper` at every iteration, and the value
returned by `bisection` lies within the original bracket `[lower, upper]`. -/
theorem bisection_result_in_bracket {α : Type} [LinearOrderedField α]
    (b : Bisection α) (f : α → α) (hle : b.lower ≤ b.upper)
    (hwide : b.epsilon < b.upper - b.lower) (hiter : 1 ≤ b.max_iter) :
    (∀ n : ℕ, b.lower ≤ (bisectionState f b.lower b.upper n).1 ∧
      (bisectionState f b.lower b.upper n).1 ≤ (bisectionState f b.lower b.upper n).2 ∧
      (bisectionState f b.lower b.upper n).2 ≤ b.upper) ∧
    b.lower ≤ b.bisection f ∧ b.bisection f ≤ b.upper := by
  refine ⟨bisectionState_mem f b.lower b.upper hle, ?_⟩
  obtain ⟨k, hk⟩ : ∃ k, b.max_iter = k + 1 :=
    ⟨b.max_iter - 1, (Nat.succ_pred_eq_of_pos hiter).symm⟩
  unfold Bisection.bisection
  rw [hk, bisectionLoop, if_pos hwide]
  simp only []
  have hm1 : b.lower ≤ (b.lower + b.upper) / 2 := by linarith
  have hm2 : (b.lower + b.upper) / 2 ≤ b.upper := by linarith
  by_cases hb : f ((b.lower + b.upper) / 2) * f b.lower ≤ 0
  · rw [if_pos hb]
    exact bisectionLoop_mem f b.epsilon b.lower b.upper k b.lower ((b.lower + b.upper) / 2)
      ((b.lower + b.upper) / 2) (le_refl _) hm1 hm2 hm1 hm2
  · rw [if_neg hb]
    exact bisectionLoop_mem f b.epsilon b.lower b.upper k ((b.lower + b.upper) / 2) b.upper
      ((b.lower + b.upper) / 2) hm1 hm2 (le_refl _) hm1 hm2

/-- Witness for C10 at a concrete bracket. -/
theorem bisection_result_in_bracket_witness :
    (0 : ℚ) ≤ 1 ∧ (1 : ℚ) / 4 < 1 - 0 ∧ 1 ≤ 3 ∧
      ((0 : ℚ) ≤ (bisectionState (fun x : ℚ => x - 1 / 3) 0 1 2).1 ∧
        (bisectionState (fun x : ℚ => x - 1 / 3) 0 1 2).1 ≤
          (bisectionState (fun x : ℚ => x - 1 / 3) 0 1 2).2 ∧
        (bisectionState (fun x : ℚ => x - 1 / 3) 0 1 2).2 ≤ 1) ∧
      (0 : ℚ) ≤ Bisection.bisection (⟨0, 1, 1 / 4, 3⟩ : Bisection ℚ) (fun x => x - 1 / 3) ∧
        Bisection.bisection (⟨0, 1, 1 / 4, 3⟩ : Bisection ℚ) (fun x => x - 1 / 3) ≤ 1 :=
  ⟨by norm_num, by norm_num, by norm_num,
    (bisection_result_in_bracket (⟨0, 1, 1 / 4, 3⟩ : Bisection ℚ) (fun x => x - 1 / 3)
      (by norm_num) (by norm_num) (by norm_num)).1 2,
    (bisection_result_in_bracket (⟨0, 1, 1 / 4, 3⟩ : Bisection ℚ) (fun x => x - 1 / 3)
      (by norm_num) (by norm_num) (by norm_num)).2⟩

/-- C6 counterexample: `f x = x * x - 1` has the same sign at both endpoints
of the bracket `[-2, 2]` (`f(-2) * f(2) = 9 > 0`), yet the very first
iteration finds `f(0) * f(-2) = -3 ≤ 0` and moves `hi` down to the midpoint;
the returned value is `-1`, far below the upper bound `2` the claim says the
loop converges toward. -/
theorem bisection_same_sign_endpoints_cex :
    0 < ((-2 : ℚ) * -2 - 1) * ((2 : ℚ) * 2 - 1) ∧
      Bisection.bisection (⟨-2, 2, 1, 2⟩ : Bisection ℚ) (fun x => x * x - 1) = -1 ∧
      Bisection.bisection (⟨-2, 2, 1, 2⟩ : Bisection ℚ) (fun x => x * x - 1) < 0 := by
  have key : Bisection.bisection (⟨-2, 2, 1, 2⟩ : Bisection ℚ) (fun x => x * x - 1) = -1 := by
    show bisectionLoop (fun x : ℚ => x * x - 1) 1 (0 + 1 + 1) (-2) 2 0 = -1
    rw [bisectionLoop]
    norm_num
    show bisectionLoop (fun x : ℚ => x * x - 1) 1 (0 + 1) (-2) 0 0 = -1
    rw [bisectionLoop]
    norm_num
    rfl
  exact ⟨by norm_num, key, by rw [key]; norm_num⟩

lemma bisectionLoop_same_sign {α : Type} [LinearOrderedField α] (f : α → α)
    (epsilon lower upper : α)
    (H : ∀ x y, lower ≤ x → x ≤ upper → lower ≤ y → y ≤ upper → 0 < f x * f y) :
    ∀ (k : ℕ) (lo root : α), lower ≤ lo → lo < upper → epsilon < upper - lo →
      ∃ N, 1 ≤ N ∧ N ≤ k + 1 ∧
        bisectionLoop f epsilon (k + 1) lo upper root = upper - (upper - lo) / 2 ^ N := by
  intro k
  induction k with
  | zero =>
    intro lo root h1 h2 h3
    rw [bisectionLoop, if_pos h3]
    simp only []
    have hb : ¬ f ((lo + upper) / 2) * f lo ≤ 0 :=
      not_le.2 (H ((lo + upper) / 2) lo (by linarith) (by linarith) h1 (le_of_lt h2))
    rw [if_neg hb]
    exact ⟨1, le_refl 1, le_refl 1, by rw [bisectionLoop]; ring⟩
  | succ k ih =>
    intro lo root h1 h2 h3
    rw [bisectionLoop, if_pos h3]
    simp only []
    have hb : ¬ f ((lo + upper) / 2) * f lo ≤ 0 :=
      not_le.2 (H ((lo + upper) / 2) lo (by linarith) (by linarith) h1 (le_of_lt h2))
    rw [if_neg hb]
    have hmlt : (lo + upper) / 2 < upper := by linarith
    by_cases hnext : epsilon < upper - (lo + upper) / 2
    · obtain ⟨N, hN1, hN2, hNe⟩ := ih ((lo + upper) / 2) ((lo + upper) / 2)
        (by linarith) hmlt hnext
      refine ⟨N + 1, by omega, by omega, ?_⟩
      rw [hNe]
      have : upper - (lo + upper) / 2 = (upper - lo) / 2 := by ring
      rw [this, pow_succ]
      ring
    · refine ⟨1, le_refl 1, by omega, ?_⟩
      rw [bisectionLoop, if_neg hnext]
      ring

/-- C6 amended: when `f` keeps one strict sign over the whole bracket (not
merely at its endpoints), the search runs without error, every iteration
takes the else-branch (`hi` never moves), and the result is
`upper - (upper - lower) / 2 ^ N` after `N ≥ 1` iterations, converging toward
`upper` without a root ever being bracketed. -/
theorem bisection_same_sign_interval {α : Type} [LinearOrderedField α]
    (b : Bisection α) (f : α → α)
    (H : ∀ x y, b.lower ≤ x → x ≤ b.upper → b.lower ≤ y → y ≤ b.upper → 0 < f x * f y)
    (heps : 0 ≤ b.epsilon) (hwide : b.epsilon < b.upper - b.lower) (hiter : 1 ≤ b.max_iter) :
    ∃ N, 1 ≤ N ∧ N ≤ b.max_iter ∧
      b.bisection f = b.upper - (b.upper - b.lower) / 2 ^ N := by
  obtain ⟨k, hk⟩ : ∃ k, b.max_iter = k + 1 :=
    ⟨b.max_iter - 1, (Nat.succ_pred_eq_of_pos hiter).symm⟩
  have hlt : b.lower < b.upper := by
    have : 0 < b.upper - b.lower := lt_of_le_of_lt heps hwide
    linarith
  unfold Bisection.bisection
  rw [hk]
  obtain ⟨N, h1, h2, h3⟩ :=
    bisectionLoop_same_sign f b.epsilon b.lower b.upper H k b.lower 0 (le_refl _) hlt hwide
  exact ⟨N, h1, by omega, h3⟩

/-- Witness for C6's amended claim: a function of constant sign on `[0, 1]`. -/
theorem bisection_same_sign_interval_witness :
    (∀ x y : ℚ, (0 : ℚ) ≤ x → x ≤ 1 → (0 : ℚ) ≤ y → y ≤ 1 →
        0 < (fun _ : ℚ => (1 : ℚ)) x * (fun _ : ℚ => (1 : ℚ)) y) ∧
      (0 : ℚ) ≤ 1 / 4 ∧ (1 : ℚ) / 4 < 1 - 0 ∧ 1 ≤ 2 ∧
      ∃ N, 1 ≤ N ∧ N ≤ 2 ∧
        Bisection.bisection (⟨0, 1, 1 / 4, 2⟩ : Bisection ℚ) (fun _ : ℚ => 1) =
          1 - (1 - 0) / 2 ^ N :=
  ⟨fun x y _ _ _ _ => by norm_num, by norm_num, by norm_num, by norm_num,
    bisection_same_sign_interval (⟨0, 1, 1 / 4, 2⟩ : Bisection ℚ) (fun _ : ℚ => 1)
      (fun x y _ _ _ _ => by norm_num) (by norm_num) (by norm_num) (by norm_num)⟩

/-- `SECONDS_PER_YEAR` from `src/math.rs`: amount of seconds per year used in
the smart contracts.  The source literal `31556953.0` denotes exactly the
integer `31556953`. -/
noncomputable def SECONDS_PER_YEAR : ℝ := 31556953

/-- The standard normal distribution `Normal::new(0.0, 1.0)` (mean `0`,
standard deviation — hence variance — `1`) supplied by the external `statrs`
crate.  Its cumulative distribution function and inverse cumulative
distribution function are kept uninterpreted, since the crate is not part of
this repository. -/
structure StdNormal where
  cdf : ℝ → ℝ
  inverse_cdf : ℝ → ℝ

/-- Embedding of `NormalCurve` from `src/math.rs`: the parameters of the
normal-distribution trading function, all scaled from wad to float. -/
structure NormalCurve where
  reserve_x_per_wad : ℝ
  reserve_y_per_wad : ℝ
  strike_price_f : ℝ
  std_dev_f : ℝ
  time_remaining_sec : ℝ
  invariant_f : ℝ

namespace NormalCurve

/-- Embedding of `NormalCurve::trading_function_floating`: the adjusted
trading function invariant `k = Φ⁻¹(y/K) - Φ⁻¹(1-x) + σ√τ`, with `n` the
standard normal distribution constructed in the source. -/
noncomputable def trading_function_floating (n : StdNormal) (self : NormalCurve) : ℝ :=
  let std_dev_sqrt_tau :=
    self.std_dev_f * Real.sqrt (self.time_remaining_sec / SECONDS_PER_YEAR)
  let invariant_term_x := n.inverse_cdf (1 - self.reserve_x_per_wad)
  let invariant_term_y := n.inverse_cdf (self.reserve_y_per_wad / self.strike_price_f)
  let k := invariant_term_y - invariant_term_x + std_dev_sqrt_tau
  k

/-- Embedding of `NormalCurve::approximate_y_given_x_floating`: the adjusted
trading function y variable `y = KΦ(Φ⁻¹(1-x) - σ√τ + k)` with `k = 0`. -/
noncomputable def approximate_y_given_x_floating (n : StdNormal) (self : NormalCurve) : ℝ :=
  let std_dev_sqrt_tau :=
    self.std_dev_f * Real.sqrt (self.time_remaining_sec / SECONDS_PER_YEAR)
  let invariant_term_x := n.inverse_cdf (1 - self.reserve_x_per_wad)
  let k := 0
  let y := self.strike_price_f * n.cdf (invariant_term_x - std_dev_sqrt_tau + k)
  y

/-- Embedding of `NormalCurve::approximate_x_given_y_floating`: the adjusted
trading function x variable `x = 1 - Φ(Φ⁻¹(y/K) + σ√τ - k)` with
`k = trading_function_floating(self)`. -/
noncomputable def approximate_x_given_y_floating (n : StdNormal) (self : NormalCurve) : ℝ :=
  let std_dev_sqrt_tau :=
    self.std_dev_f * Real.sqrt (self.time_remaining_sec / SECONDS_PER_YEAR)
  let invariant_term_y := n.inverse_cdf (self.reserve_y_per_wad / self.strike_price_f)
  let k := trading_function_floating n self
  let x := 1 - n.cdf (invariant_term_y + std_dev_sqrt_tau - k)
  x

/-- The `while x < 1.0` loop of `NormalCurve::get_trading_function_coordinates`.
`fuel` only bounds the number of iterations for termination; it is chosen
larger than the 100 steps the sweep takes.  Note that the source computes
`y` from `self`, the original state, even though it overwrites
`copy.reserve_x_per_wad` with the current `x` first. -/
noncomputable def coordLoop (n : StdNormal) (self : NormalCurve) :
    ℕ → NormalCurve → ℝ → List (ℝ × ℝ)
  | 0, _, _ => []
  | fuel + 1, copy, x =>
    if x < 1 then
      (x, approximate_y_given_x_floating n self) ::
        coordLoop n self fuel { copy with reserve_x_per_wad := x } (x + 0.01)
    else []

/-- Embedding of `NormalCurve::get_trading_function_coordinates`: sweeps `x`
from `0.0` while `x < 1.0` in steps of `0.01`, pushing `(x, y)` pairs. -/
noncomputable def get_trading_function_coordinates (n : StdNormal) (self : NormalCurve) :
    List (ℝ × ℝ) :=
  coordLoop n self 101 self 0

/-- The coordinate sweep as the specification and claim describe it: each `y`
is `approximate_y_given_x_floating` of the cloned state whose
`reserve_x_per_wad` has been overwritten with the current `x`. -/
noncomputable def coordLoopSpec (n : StdNormal) (self : NormalCurve) :
    ℕ → NormalCurve → ℝ → List (ℝ × ℝ)
  | 0, _, _ => []
  | fuel + 1, copy, x =>
    if x < 1 then
      (x, approximate_y_given_x_floating n { copy with reserve_x_per_wad := x }) ::
        coordLoopSpec n self fuel { copy with reserve_x_per_wad := x } (x + 0.01)
    else []

/-- Spec-described counterpart of `get_trading_function_coordinates`. -/
noncomputable def get_trading_function_coordinates_spec (n : StdNormal) (self : NormalCurve) :
    List (ℝ × ℝ) :=
  coordLoopSpec n self 101 self 0

/-- Embedding of `NormalCurve::find_root_swapping_x`: the target function for
the sell-asset search — the invariant of the state with `reserve_y_per_wad`
replaced by `value`, minus `invariant_f + 1e-18`. -/
noncomputable def find_root_swapping_x (n : StdNormal) (self : NormalCurve) (value : ℝ) : ℝ :=
  trading_function_floating n { self with reserve_y_per_wad := value } -
    (self.invariant_f + 1e-18)

/-- Embedding of `NormalCurve::find_root_swapping_y`: the target function for
the buy-asset search — the invariant of the state with `reserve_x_per_wad`
replaced by `value`, minus `invariant_f - 1e-18`. -/
noncomputable def find_root_swapping_y (n : StdNormal) (self : NormalCurve) (value : ℝ) : ℝ :=
  trading_function_floating n { self with reserve_x_per_wad := value } -
    (self.invariant_f - 1e-18)

/-- Embedding of `NormalCurve::approximate_other_reserve`: bisection over
`[0, 1]` with `epsilon = 0.0001` and `max_iter = 1000`, on the cloned state
whose known reserve has been overwritten with `reserve_in`. -/
noncomputable def approximate_other_reserve (n : StdNormal) (self : NormalCurve)
    (sell_asset : Bool) (reserve_in : ℝ) : ℝ :=
  let data : Bisection ℝ := ⟨0, 1, 0.0001, 1000⟩
  if sell_asset then
    data.bisection (fun x => find_root_swapping_x n { self with reserve_x_per_wad := reserve_in } x)
  else
    data.bisection (fun x => find_root_swapping_y n { self with reserve_y_per_wad := reserve_in } x)

/-- Embedding of `NormalCurve::approximate_amount_out`: the current opposite
reserve minus the solved-for new opposite reserve. -/
noncomputable def approximate_amount_out (n : StdNormal) (self : NormalCurve)
    (sell_asset : Bool) (amount_in : ℝ) : ℝ :=
  if sell_asset then
    self.reserve_y_per_wad -
      approximate_other_reserve n self true (self.reserve_x_per_wad + amount_in)
  else
    self.reserve_x_per_wad -
      approximate_other_reserve n self false (self.reserve_y_per_wad + amount_in)

end NormalCurve

/-- C1: for every curve state and every interpretation `n` of the standard
normal distribution, `trading_function_floating` returns exactly
`Φ⁻¹(reserveY / strikePrice) - Φ⁻¹(1 - reserveX) + volatility *
sqrt(timeRemainingSeconds / 31556953)`. -/
theorem trading_function_floating_formula (n : StdNormal) (s : NormalCurve) :
    NormalCurve.trading_function_floating n s =
      n.inverse_cdf (s.reserve_y_per_wad / s.strike_price_f) -
        n.inverse_cdf (1 - s.reserve_x_per_wad) +
        s.std_dev_f * Real.sqrt (s.time_remaining_sec / 31556953) := rfl

/-- C5: `approximate_other_reserve` with `sell_asset = true` is the bisection
over `[0, 1]` with `epsilon = 0.0001` and `max_iter = 1000` of
`y ↦ invariant(state with reserveX = r, reserveY = y) - (invariant_f + 1e-18)`,
and with `sell_asset = false` the symmetric search
`x ↦ invariant(state with reserveY = r, reserveX = x) - (invariant_f - 1e-18)`. -/
theorem approximate_other_reserve_spec (n : StdNormal) (s : NormalCurve) (r : ℝ) :
    NormalCurve.approximate_other_reserve n s true r =
      Bisection.bisection (⟨0, 1, 0.0001, 1000⟩ : Bisection ℝ)
        (fun y => NormalCurve.trading_function_floating n
            { s with reserve_x_per_wad := r, reserve_y_per_wad := y } -
          (s.invariant_f + 1e-18)) ∧
    NormalCurve.approximate_other_reserve n s false r =
      Bisection.bisection (⟨0, 1, 0.0001, 1000⟩ : Bisection ℝ)
        (fun x => NormalCurve.trading_function_floating n
            { s with reserve_y_per_wad := r, reserve_x_per_wad := x } -
          (s.invariant_f - 1e-18)) := by
  constructor
  · show Bisection.bisection (⟨0, 1, 0.0001, 1000⟩ : Bisection ℝ)
        (fun x => NormalCurve.find_root_swapping_x n { s with reserve_x_per_wad := r } x) = _
    congr 1
  · show Bisection.bisection (⟨0, 1, 0.0001, 1000⟩ : Bisection ℝ)
        (fun x => NormalCurve.find_root_swapping_y n { s with reserve_y_per_wad := r } x) = _
    congr 1

lemma approximate_x_given_y_self (n : StdNormal) (t : NormalCurve)
    (hcdf : n.cdf (n.inverse_cdf (1 - t.reserve_x_per_wad)) = 1 - t.reserve_x_per_wad) :
    NormalCurve.approximate_x_given_y_floating n t = t.reserve_x_per_wad := by
  show 1 - n.cdf (n.inverse_cdf (t.reserve_y_per_wad / t.strike_price_f) +
      t.std_dev_f * Real.sqrt (t.time_remaining_sec / SECONDS_PER_YEAR) -
      (n.inverse_cdf (t.reserve_y_per_wad / t.strike_price_f) -
        n.inverse_cdf (1 - t.reserve_x_per_wad) +
        t.std_dev_f * Real.sqrt (t.time_remaining_sec / SECONDS_PER_YEAR))) =
    t.reserve_x_per_wad
  have harg : n.inverse_cdf (t.reserve_y_per_wad / t.strike_price_f) +
      t.std_dev_f * Real.sqrt (t.time_remaining_sec / SECONDS_PER_YEAR) -
      (n.inverse_cdf (t.reserve_y_per_wad / t.strike_price_f) -
        n.inverse_cdf (1 - t.reserve_x_per_wad) +
        t.std_dev_f * Real.sqrt (t.time_remaining_sec / SECONDS_PER_YEAR)) =
      n.inverse_cdf (1 - t.reserve_x_per_wad) := by ring
  rw [harg, hcdf]
  ring

/-- C7: starting from a state with `reserve_x_per_wad = x0` in `(0.05, 0.95)`,
computing `y0 = approximate_y_given_x_floating`, then solving
`approximate_x_given_y_floating` on the state with `reserve_y_per_wad = y0`
(other parameters fixed) recovers `x0` within `1e-3` (in the real-valued
model it recovers `x0` exactly, because the solver holds the state's own
invariant fixed), whenever the CDF inverts the inverse CDF. -/
theorem round_trip (n : StdNormal) (s : NormalCurve) (x0 : ℝ)
    (hx : s.reserve_x_per_wad = x0) (h05 : 0.05 < x0) (h95 : x0 < 0.95)
    (hcdf : ∀ p : ℝ, n.cdf (n.inverse_cdf p) = p) :
    |NormalCurve.approximate_x_given_y_floating n
        { s with reserve_y_per_wad := NormalCurve.approximate_y_given_x_floating n s } -
      x0| ≤ 1e-3 := by
  have h := approximate_x_given_y_self n
    { s with reserve_y_per_wad := NormalCurve.approximate_y_given_x_floating n s }
    (by
      show n.cdf (n.inverse_cdf (1 - s.reserve_x_per_wad)) = 1 - s.reserve_x_per_wad
      exact hcdf _)
  rw [h]
  show |s.reserve_x_per_wad - x0| ≤ 1e-3
  rw [hx]
  simp
  norm_num

/-- A concrete interpretation of the CDF pair (both maps the identity),
used to evaluate theorems about the curve model at concrete inputs. -/
def idStdNormal : StdNormal := ⟨fun z => z, fun z => z⟩

/-- A concrete curve state used to evaluate theorems at concrete inputs. -/
noncomputable def testCurve : NormalCurve := ⟨1 / 2, 1 / 2, 1, 1, 1, 0⟩

/-- Witness for C7 at a concrete state and CDF interpretation. -/
theorem round_trip_witness :
    |NormalCurve.approximate_x_given_y_floating idStdNormal
        { testCurve with reserve_y_per_wad :=
            NormalCurve.approximate_y_given_x_floating idStdNormal testCurve } -
      1 / 2| ≤ 1e-3 :=
  round_trip idStdNormal testCurve (1 / 2) rfl
    (by norm_num) (by norm_num) (fun p => rfl)

lemma bisectionLoop_pos {α : Type} [LinearOrderedField α] (f : α → α) (epsilon : α) :
    ∀ (fuel : ℕ) (lo hi root : α), 0 ≤ lo → lo < hi → 0 < root →
      0 < bisectionLoop f epsilon fuel lo hi root := by
  intro fuel
  induction fuel with
  | zero => intro lo hi root _ _ h3; exact h3
  | succ k ih =>
    intro lo hi root h1 h2 h3
    rw [bisectionLoop]
    by_cases hd : hi - lo > epsilon
    · rw [if_pos hd]
      simp only []
      have hm0 : 0 < (lo + hi) / 2 := by linarith
      have hml : lo < (lo + hi) / 2 := by linarith
      have hmh : (lo + hi) / 2 < hi := by linarith
      by_cases hb : f ((lo + hi) / 2) * f lo ≤ 0
      · rw [if_pos hb]
        exact ih lo ((lo + hi) / 2) ((lo + hi) / 2) h1 hml hm0
      · rw [if_neg hb]
        exact ih ((lo + hi) / 2) hi ((lo + hi) / 2) (le_of_lt hm0) hmh hm0
    · rw [if_neg hd]
      exact h3

lemma bisection_pos {α : Type} [LinearOrderedField α] (b : Bisection α) (f : α → α)
    (h1 : 0 ≤ b.lower) (h2 : b.lower < b.upper)
    (hwide : b.epsilon < b.upper - b.lower) (hiter : 1 ≤ b.max_iter) :
    0 < b.bisection f := by
  obtain ⟨k, hk⟩ : ∃ k, b.max_iter = k + 1 :=
    ⟨b.max_iter - 1, (Nat.succ_pred_eq_of_pos hiter).symm⟩
  unfold Bisection.bisection
  rw [hk, bisectionLoop, if_pos hwide]
  simp only []
  have hm0 : 0 < (b.lower + b.upper) / 2 := by linarith
  have hml : b.lower < (b.lower + b.upper) / 2 := by linarith
  have hmh : (b.lower + b.upper) / 2 < b.upper := by linarith
  by_cases hb : f ((b.lower + b.upper) / 2) * f b.lower ≤ 0
  · rw [if_pos hb]
    exact bisectionLoop_pos f b.epsilon k b.lower _ _ h1 hml hm0
  · rw [if_neg hb]
    exact bisectionLoop_pos f b.epsilon k _ b.upper _ (le_of_lt hm0) hmh hm0

/-- C8: for a state whose reserves and ratio lie strictly inside their
documented domains and any `amount_in > 0`, the amount out for
`sell_asset = true` is strictly less than the current `reserve_y_per_wad`:
the solved-for new y reserve (a midpoint of the `[0, 1]` bisection, which
runs at least one iteration) is strictly positive. -/
theorem approximate_amount_out_lt_reserve_y (n : StdNormal) (s : NormalCurve)
    (amount_in : ℝ)
    (hx0 : 0 < s.reserve_x_per_wad) (hx1 : s.reserve_x_per_wad < 1)
    (hr0 : 0 < s.reserve_y_per_wad / s.strike_price_f)
    (hr1 : s.reserve_y_per_wad / s.strike_price_f < 1)
    (hK : 0 < s.strike_price_f) (ha : 0 < amount_in) :
    NormalCurve.approximate_amount_out n s true amount_in < s.reserve_y_per_wad := by
  show s.reserve_y_per_wad -
      NormalCurve.approximate_other_reserve n s true (s.reserve_x_per_wad + amount_in) <
    s.reserve_y_per_wad
  have hpos : 0 <
      NormalCurve.approximate_other_reserve n s true (s.reserve_x_per_wad + amount_in) := by
    show 0 < Bisection.bisection (⟨0, 1, 0.0001, 1000⟩ : Bisection ℝ)
      (fun x => NormalCurve.find_root_swapping_x n
        { s with reserve_x_per_wad := s.reserve_x_per_wad + amount_in } x)
    exact bisection_pos _ _ (le_refl 0) (by norm_num) (by norm_num) (by norm_num)
  linarith

/-- Witness for C8 at a concrete state, CDF interpretation and trade size. -/
theorem approximate_amount_out_lt_reserve_y_witness :
    NormalCurve.approximate_amount_out idStdNormal testCurve true (1 / 100) <
      testCurve.reserve_y_per_wad :=
  approximate_amount_out_lt_reserve_y idStdNormal testCurve (1 / 100)
    (by norm_num [testCurve]) (by norm_num [testCurve]) (by norm_num [testCurve])
    (by norm_num [testCurve]) (by norm_num [testCurve]) (by norm_num)

lemma coordLoop_snd_const (n : StdNormal) (self : NormalCurve) :
    ∀ (fuel : ℕ) (copy : NormalCurve) (x : ℝ) (p : ℝ × ℝ),
      p ∈ NormalCurve.coordLoop n self fuel copy x →
      p.2 = NormalCurve.approximate_y_given_x_floating n self := by
  intro fuel
  induction fuel with
  | zero =>
    intro copy x p hp
    simp [NormalCurve.coordLoop] at hp
  | succ k ih =>
    intro copy x p hp
    rw [NormalCurve.coordLoop] at hp
    by_cases hx : x < 1
    · rw [if_pos hx] at hp
      rcases List.mem_cons.1 hp with h | h
      · rw [h]
      · exact ih _ _ _ h
    · rw [if_neg hx] at hp
      simp at hp

lemma coordLoop_get_one (n : StdNormal) (self : NormalCurve) (fuel : ℕ)
    (copy : NormalCurve) (x : ℝ) (h1 : x < 1) (h2 : x + 0.01 < 1) :
    (NormalCurve.coordLoop n self (fuel + 2) copy x).get? 1 =
      some (x + 0.01, NormalCurve.approximate_y_given_x_floating n self) := by
  rw [show fuel + 2 = (fuel + 1) + 1 from rfl, NormalCurve.coordLoop, if_pos h1]
  rw [NormalCurve.coordLoop, if_pos h2]
  rfl

lemma coordLoopSpec_get_one (n : StdNormal) (self : NormalCurve) (fuel : ℕ)
    (copy : NormalCurve) (x : ℝ) (h1 : x < 1) (h2 : x + 0.01 < 1) :
    (NormalCurve.coordLoopSpec n self (fuel + 2) copy x).get? 1 =
      some (x + 0.01, NormalCurve.approximate_y_given_x_floating n
        { copy with reserve_x_per_wad := x + 0.01 }) := by
  rw [show fuel + 2 = (fuel + 1) + 1 from rfl, NormalCurve.coordLoopSpec, if_pos h1]
  rw [NormalCurve.coordLoopSpec, if_pos h2]
  rfl

/-- A concrete curve state with zero volatility and zero remaining time, so
that the vol-time term vanishes and the sweep can be evaluated exactly. -/
noncomputable def flatCurve : NormalCurve := ⟨1 / 2, 1 / 2, 1, 0, 0, 0⟩

lemma approximate_y_flatCurve :
    NormalCurve.approximate_y_given_x_floating idStdNormal flatCurve = 1 / 2 := by
  show (1 : ℝ) * ((1 - 1 / 2) - 0 * Real.sqrt (0 / SECONDS_PER_YEAR) + 0) = 1 / 2
  norm_num

lemma approximate_y_flatCurve_overwritten :
    NormalCurve.approximate_y_given_x_floating idStdNormal
      { flatCurve with reserve_x_per_wad := 0 + 0.01 } = 99 / 100 := by
  show (1 : ℝ) * ((1 - (0 + 0.01)) - 0 * Real.sqrt (0 / SECONDS_PER_YEAR) + 0) = 99 / 100
  norm_num

/-- C2 (code bug): the sweep sets `x` correctly (index 1 holds `x = 0.01`),
but the source computes every `y` from the original `self` rather than from
the cloned state whose `reserve_x_per_wad` was overwritten: at index 1 the
code produces `y = 1/2` (the value at the original `reserve_x_per_wad = 1/2`)
while the spec-described sweep produces `y = 99/100`. -/
theorem get_trading_function_coordinates_bug :
    (NormalCurve.get_trading_function_coordinates idStdNormal flatCurve).get? 1 =
        some (0.01, 1 / 2) ∧
      (NormalCurve.get_trading_function_coordinates_spec idStdNormal flatCurve).get? 1 =
        some (0.01, 99 / 100) ∧
      ((1 : ℝ) / 2 ≠ 99 / 100) := by
  refine ⟨?_, ?_, by norm_num⟩
  · show (NormalCurve.coordLoop idStdNormal flatCurve (99 + 2) flatCurve 0).get? 1 =
      some (0.01, 1 / 2)
    rw [coordLoop_get_one idStdNormal flatCurve 99 flatCurve 0 (by norm_num) (by norm_num)]
    rw [approximate_y_flatCurve]
    norm_num
  · show (NormalCurve.coordLoopSpec idStdNormal flatCurve (99 + 2) flatCurve 0).get? 1 =
      some (0.01, 99 / 100)
    rw [coordLoopSpec_get_one idStdNormal flatCurve 99 flatCurve 0 (by norm_num) (by norm_num)]
    rw [approximate_y_flatCurve_overwritten]
    norm_num
